import Mathlib

/-!
Verification of the Diagonal Source Transfer (DST) sweeping preconditioner
from examples/maxwell-solver/DST/DST.cpp.

The development shallowly embeds the combinatorial and bookkeeping content of
the DST class: the sweep sign vectors, the delivery scan of TransferSources,
the anti-diagonal traversal of Mult, the per-patch skip test, the transfer
size assertion, and the reset of the per-application buffers.  Scalars are
modelled as rationals (exact arithmetic standing in for IEEE doubles), local
vectors as lists of rationals, global vectors as functions from global dof
indices to rationals, and the external collaborators (the factorized local
PML solver, the local PML matrix, the cutoff projection and the dof maps)
as opaque function parameters gathered in a context structure, since their
code lies outside the DST core.  Fallible steps (the `MFEM_VERIFY` size
assertion) run in the `Except String` monad, an error modelling the fatal
abort.
-/

namespace DST

/-! ### Sweep directions and the delivery scan -/

/-- The number of sweep directions for the 2D case, `nsweeps = pow(2,dim)`
with `dim = 2` (DST.cpp line 46). -/
def nsweeps : ℕ := 4

/-- The sweep sign vectors, rows of the `sweeps` array (DST.cpp lines 49-52).
Row indices 4 and above never occur; the catch-all clause returns the last
row. -/
def sweeps : ℕ → ℤ × ℤ
  | 0 => (1, 1)
  | 1 => (-1, 1)
  | 2 => (1, -1)
  | _ => (-1, -1)

/-- The dot product `is*i + js*j` of the sign vector of sweep `l` with the
transfer direction `(i,j)` (DST.cpp lines 335-337). -/
def ruleDot (l : ℕ) (i j : ℤ) : ℤ :=
  (sweeps l).1 * i + (sweeps l).2 * j

/-- Rule 2 of the delivery scan exactly as the source computes it
(DST.cpp lines 346-352): for an axis-aligned transfer the scan is meant to
skip a candidate sweep whose sign vector is opposite to that of the current
sweep, but the source reads `il = sweeps(l,0)` and `jl = sweeps(l,1)` from
the SAME row `l` as `is` and `js`, so the comparison `is == -il && js == -jl`
tests a sign vector against its own negation and can never fire. -/
def rule2SkipCode (l : ℕ) (i j : ℤ) : Bool :=
  if i = 0 ∨ j = 0 then
    let isx := (sweeps l).1
    let jsx := (sweeps l).2
    let il := (sweeps l).1
    let jl := (sweeps l).2
    decide (isx = -il ∧ jsx = -jl)
  else false

/-- The delivery scan of `DST::TransferSources` (DST.cpp lines 330-359):
scan `l` over `sweep, sweep+1, ..., nsweeps-1`, skip candidates with
non-positive dot product (Rule 1) and candidates rejected by Rule 2 as the
source implements it, and return the first survivor, which is the sweep
index whose buffer receives the transferred residual; `none` when the scan
exhausts all candidates (then nothing is accumulated). -/
def destSweep (sweep : ℕ) (i j : ℤ) : Option ℕ :=
  (List.range' sweep (nsweeps - sweep)).find? (fun l =>
    decide (0 < ruleDot l i j) && ! rule2SkipCode l i j)

/-- Modelled from the spec: the delivery scan with Rule 2 as the spec words
it, comparing the sign vector of the CANDIDATE sweep `l` with the sign
vector of the CURRENT sweep `sweep` (an axis-aligned transfer "must not be
delivered to a sweep whose sign vector is the exact negation of the current
sweep sign vector").  This definition exists only to be compared with
`destSweep`, which transcribes the source. -/
def destSweepSpec (sweep : ℕ) (i j : ℤ) : Option ℕ :=
  (List.range' sweep (nsweeps - sweep)).find? (fun l =>
    decide (0 < ruleDot l i j) &&
    ! (decide (i = 0 ∨ j = 0) &&
       decide ((sweeps l).1 = -(sweeps sweep).1 ∧ (sweeps l).2 = -(sweeps sweep).2)))

/-! ### Vectors

Local vectors (class `Vector` of the host library) are lists of rationals;
`operator+=` is entrywise addition and `Norml2` is the euclidean norm. -/

/-- Entrywise sum of two local vectors (`Vector::operator+=`). -/
def vecAdd (a b : List ℚ) : List ℚ := List.zipWith (· + ·) a b

/-- A zero local vector of length `n`. -/
def zeros (n : ℕ) : List ℚ := List.replicate n 0

/-- The sum of squares of the entries of a local vector.  `Norml2` of the
source is its square root; since the square root of a rational is not
rational, every comparison `v.Norml2() < t` with `t > 0` is embedded as the
equivalent `sumSq v < t^2` (both sides of the original comparison are
nonnegative). -/
def sumSq (v : List ℚ) : ℚ := (v.map (fun x => x * x)).sum

/-- The skip threshold `1e-11` of DST.cpp line 139. -/
def dstThreshold : ℚ := 1e-11

/-- The message of the fatal size assertion (DST.cpp lines 355-356). -/
def sizeErrMsg : String := "Transfer Sources: inconsistent size"

/-- The guarded accumulation at DST.cpp lines 355-357: `MFEM_VERIFY` aborts
the application when the buffer of the target patch and the gathered
residual differ in size, and only on equal sizes is `res1` added
(accumulated, not overwritten) into the buffer. -/
def verifyAccumulate (buf res : List ℚ) : Except String (List ℚ) :=
  if buf.length = res.length then Except.ok (vecAdd buf res)
  else Except.error sizeErrMsg

/-! ### Cutoff windowing

Modelled from the spec: the pointwise window function `CutOffFncn` and the
finite element projection `ProjectCoefficient` used by
`DST::GetCutOffSolution` (DST.cpp lines 166-231) are not under src/.  Per
spec section 4.4 the operation multiplies the local solution, degree of
freedom by degree of freedom, by a window equal to 1 in the patch interior
and decaying to 0 across the transition band next to the boundary in the
requested direction. -/

/-- Modelled from the spec: applying the cutoff window `w` to a local
solution `u` multiplies the two pointwise (real and imaginary parts are
windowed independently, so a single scalar field suffices). -/
def cutoffApply (w u : ℕ → ℚ) : ℕ → ℚ := fun p => w p * u p

/-- Modelled from the spec: a representative window on a one dimensional
row of nodes 0..4, equal to 1 on the interior nodes 0..2 and decaying to 0
across the transition band at nodes 3 and 4 (any faithful window takes a
value strictly between 0 and 1 somewhere inside the band, since it decays
continuously from 1 to 0 across it). -/
def windowEx : ℕ → ℚ := fun p =>
  if p ≤ 2 then 1 else if p = 3 then 1 / 2 else 0

/-- Modelled from the spec: a sample local solution, constant 1. -/
def solEx : ℕ → ℚ := fun _ => 1

/-! ### The preconditioner state and context -/

/-- The construction-time state of a DST object that `Mult` consumes.  The
grid shape `nx, ny` comes from the partitioner; `Dof2GlobalDof` is the per
patch local-to-global dof map of `DofMap` (doubled for complex
interleaving); `bufLen ip` is the length `2*TrueVSize` of the transfer
buffers of patch `ip` (DST.cpp line 60); `PmlMatInv` is the action of the
factorized local PML solver `KLUSolver`, `PmlMat` the local PML matrix, and
`GetCutOffSolution` the cutoff projection of DST.cpp lines 166-231, taking
the patch id, the direction pair and the local vector.  These collaborators
are opaque function parameters: their code is outside the DST core. -/
structure DSTCtx where
  nx : ℕ
  ny : ℕ
  Dof2GlobalDof : ℕ → List ℕ
  bufLen : ℕ → ℕ
  PmlMatInv : ℕ → List ℚ → List ℚ
  PmlMat : ℕ → List ℚ → List ℚ
  GetCutOffSolution : ℕ → ℤ × ℤ → List ℚ → List ℚ

/-- The mutable per-application buffers of the DST object: the original
source `f_orig[ip]` and the transfer source buffers `f_transf[ip][l]`
(DST.cpp lines 54-67). -/
structure DSTState where
  f_orig : ℕ → List ℚ
  f_transf : ℕ → ℕ → List ℚ

/-- A state whose buffers are all empty (for example the freshly
constructed object before any application sized the buffers). -/
def stEmpty : DSTState :=
  { f_orig := fun _ => [], f_transf := fun _ _ => [] }

/-- `DST::Getijk` (DST.cpp lines 239-244): recover the grid coordinates of
a linear patch id, with `ip - k*nx*ny` rendered as the remainder. -/
def Getijk (nx ny ip : ℕ) : ℕ × ℕ × ℕ :=
  let k := ip / (nx * ny)
  let rem := ip - k * (nx * ny)
  (rem % nx, rem / nx, k)

/-- `DST::GetPatchId` (DST.cpp lines 246-251).  Modelled from the spec: the
`subdomains` lookup table is built by `MeshPartition`, which is not under
src/; per the data model (grid coordinates and linear id in 1:1
correspondence) and consistently with `DST::Getijk`, the id is the row
major index `i + nx*j` of the 2D grid. -/
def GetPatchId (nx : ℕ) (i j : ℤ) : ℕ := (i + nx * j).toNat

/-- `Vector::SetSubVector` on a zero-initialized global vector followed by
reads: `setSubVector dofs v g` overwrites `g` at the positions listed in
`dofs` with the entries of `v`, later writes winning, as sequential stores
do. -/
def setSubVector (dofs : List ℕ) (v : List ℚ) (g : ℕ → ℚ) : ℕ → ℚ :=
  match dofs, v with
  | d :: ds, x :: xs => setSubVector ds xs (fun k => if k = d then x else g k)
  | _, _ => g

/-- `DST::TransferSources` (DST.cpp lines 254-362): for every in-range
neighbor offset `(i,j)` of patch `ip0`, window the local solution toward
the neighbor, apply the local PML matrix and negate, scatter through the
dof map of `ip0` into a zero global vector, gather through the dof map of
the neighbor `ip1`, and accumulate the result into the transfer buffer of
the sweep chosen by the delivery scan `destSweep` (none chosen: no
accumulation), with the fatal size assertion guarding the accumulation. -/
def TransferSources (ctx : DSTCtx) (sweep ip0 : ℕ) (sol0 : List ℚ)
    (st : DSTState) : Except String DSTState :=
  let ijk := Getijk ctx.nx ctx.ny ip0
  let i0 := ijk.1
  let j0 := ijk.2.1
  ([-1, 0, 1] : List ℤ).foldlM (fun st1 i =>
    if (i0 : ℤ) + i < 0 ∨ (ctx.nx : ℤ) ≤ (i0 : ℤ) + i then pure st1 else
    ([-1, 0, 1] : List ℤ).foldlM (fun st2 j =>
      if i = 0 ∧ j = 0 then pure st2 else
      if (j0 : ℤ) + j < 0 ∨ (ctx.ny : ℤ) ≤ (j0 : ℤ) + j then pure st2 else
      let ip1 := GetPatchId ctx.nx ((i0 : ℤ) + i) ((j0 : ℤ) + j)
      let cfsol0 := ctx.GetCutOffSolution ip0 (i, j) sol0
      let res0 := (ctx.PmlMat ip0 cfsol0).map (fun x => -x)
      let znew := setSubVector (ctx.Dof2GlobalDof ip0) res0 (fun _ => 0)
      let res1 := (ctx.Dof2GlobalDof ip1).map znew
      match destSweep sweep i j with
      | none => pure st2
      | some l =>
        (verifyAccumulate (st2.f_transf ip1 l) res1).map (fun buf =>
          { st2 with f_transf := fun p lev =>
              if p = ip1 ∧ lev = l then buf else st2.f_transf p lev })
      ) st1
    ) st

/-- The local residual formed at DST.cpp lines 133-137: start from zero,
add the original source only in sweep 0, then add the transfer buffer of
the current sweep. -/
def localResidual (st : DSTState) (l ip ndofs : ℕ) : List ℚ :=
  vecAdd (if l = 0 then vecAdd (zeros ndofs) (st.f_orig ip) else zeros ndofs)
    (st.f_transf ip l)

/-- The per-patch body of the sweep loop (DST.cpp lines 122-159): form the
local residual; when its norm is below `1e-11` skip the patch entirely
(`continue`), otherwise solve with the factorized local PML operator,
transfer sources to the neighbors, window the solution twice (toward the
increasing-index neighbors, then toward the decreasing-index neighbors),
scatter into a zero global vector and add to the running correction. -/
def patchBody (ctx : DSTCtx) (l i j : ℕ) (st : DSTState) (z : ℕ → ℚ) :
    Except String (DSTState × (ℕ → ℚ)) :=
  if sumSq (localResidual st l (GetPatchId ctx.nx i j)
      (ctx.Dof2GlobalDof (GetPatchId ctx.nx i j)).length) < dstThreshold ^ 2
  then Except.ok (st, z)
  else
    let ip := GetPatchId ctx.nx i j
    let dofs := ctx.Dof2GlobalDof ip
    let ndofs := dofs.length
    let sol_local := ctx.PmlMatInv ip (localResidual st l ip ndofs)
    (TransferSources ctx l ip sol_local st).map (fun st2 =>
      let d1 : ℤ × ℤ :=
        ((if i + 1 < ctx.nx then 1 else 0), (if j + 1 < ctx.ny then 1 else 0))
      let cfsol1 := ctx.GetCutOffSolution ip d1 sol_local
      let d2 : ℤ × ℤ :=
        ((if 0 < i then -1 else 0), (if 0 < j then -1 else 0))
      let cfsol2 := ctx.GetCutOffSolution ip d2 cfsol1
      let znew := setSubVector dofs cfsol2 (fun _ => 0)
      (st2, fun gk => z gk + znew gk))

/-- The `switch (l)` of DST.cpp lines 112-119 deriving the grid row `j`
from the front index `s` and the column `i`, as a signed integer. -/
def jOfSwitch (nx ny l s i : ℕ) : ℤ :=
  match l with
  | 0 => (s : ℤ) - (i : ℤ)
  | 1 => (s : ℤ) - (nx : ℤ) + (i : ℤ) + 1
  | 2 => (nx : ℤ) + (i : ℤ) - (s : ℤ) - 1
  | _ => (nx : ℤ) + (ny : ℤ) - (i : ℤ) - (s : ℤ) - 2

/-- One iteration of the innermost loop of `DST::Mult` (DST.cpp lines
110-160): compute `j` from the switch, skip when out of range
(`continue`, line 120), otherwise run the patch body. -/
def stepCell (ctx : DSTCtx) (l s i : ℕ) (pz : DSTState × (ℕ → ℚ)) :
    Except String (DSTState × (ℕ → ℚ)) :=
  let j := jOfSwitch ctx.nx ctx.ny l s i
  if j < 0 ∨ (ctx.ny : ℤ) ≤ j then Except.ok pz
  else patchBody ctx l i j.toNat pz.1 pz.2

/-- One sweep of `DST::Mult` (DST.cpp lines 105-161): fronts
`s = 0 .. nsteps-1` with `nsteps = nx + ny - 1`, and within each front the
columns `i = 0 .. nx-1`. -/
def sweepPass (ctx : DSTCtx) (l : ℕ) (pz : DSTState × (ℕ → ℚ)) :
    Except String (DSTState × (ℕ → ℚ)) :=
  (List.range (ctx.nx + ctx.ny - 1)).foldlM (fun acc s =>
    (List.range ctx.nx).foldlM (fun acc2 i => stepCell ctx l s i acc2) acc) pz

/-- The sweep indices executed by one application: the loop
`for (int l = 0; l < 1; l++)` of DST.cpp line 103. -/
def multSweepIndices : List ℕ := List.range 1

/-- The reset and scatter prologue of `DST::Mult` (DST.cpp lines 74-86):
every original-source buffer and every transfer buffer is overwritten
(zeroed), then the restriction of the input residual is gathered into each
original-source buffer.  The buffer contents left by any earlier
application (`_oldState`) are discarded wholesale. -/
def resetScatter (ctx : DSTCtx) (r : ℕ → ℚ) (_oldState : DSTState) : DSTState :=
  { f_orig := fun ip => (ctx.Dof2GlobalDof ip).map r
    f_transf := fun ip _l => zeros (ctx.bufLen ip) }

/-- `DST::Mult` (DST.cpp lines 72-163): reset and scatter, zero the output
correction, then run the per-sweep loop over `multSweepIndices`.  The
result pairs the final buffer state with the output correction vector. -/
def Mult (ctx : DSTCtx) (st0 : DSTState) (r : ℕ → ℚ) :
    Except String (DSTState × (ℕ → ℚ)) :=
  multSweepIndices.foldlM (fun pz l => sweepPass ctx l pz)
    (resetScatter ctx r st0, fun _ => 0)

/-- The output correction of one application of `Mult`. -/
def MultZ (ctx : DSTCtx) (st0 : DSTState) (r : ℕ → ℚ) :
    Except String (ℕ → ℚ) :=
  (Mult ctx st0 r).map (fun pz => pz.2)

/-- A minimal concrete context: one patch, empty dof map. -/
def ctxTrivial : DSTCtx :=
  { nx := 1, ny := 1, Dof2GlobalDof := fun _ => [], bufLen := fun _ => 0,
    PmlMatInv := fun _ v => v, PmlMat := fun _ v => v,
    GetCutOffSolution := fun _ _ v => v }

/-- A concrete context with inconsistent sizes: the transfer buffers have
length 0 while the dof map of patch 1 has one entry, so a transfer gathered
into patch 1 has size 1 and trips the size assertion. -/
def ctxMismatch : DSTCtx :=
  { nx := 2, ny := 1,
    Dof2GlobalDof := fun ip => if ip = 0 then [] else [1],
    bufLen := fun _ => 0,
    PmlMatInv := fun _ v => v, PmlMat := fun _ v => v,
    GetCutOffSolution := fun _ _ v => v }

/-! ### The constructor -/

/-- The caller-controlled constructor arguments of `DST::DST` (DST.cpp
lines 6-9), with the sesquilinear form represented by the data the
constructor reads from it (the mesh dimension and the global true dof
count) and the coefficient `ws` by an opaque tag. -/
structure DSTCtorArgs where
  meshDim : ℕ
  gTrueVSize : ℕ
  Pmllength : List ℚ
  omega : ℚ
  wsTag : ℕ
  nrlayers : ℕ

/-- The partition-related state the constructor builds. -/
structure DSTConfig where
  nxyz : ℕ × ℕ × ℕ
  nrpatch : ℕ
  nsweeps : ℕ

/-- The partitioning part of `DST::DST` (DST.cpp lines 17-52): the grid
subdivision counts are the local variables `nx = 2`, `ny = 2`, `nz = 1`
(lines 21-23), fixed before any argument is consulted.  Modelled from the
spec: `MeshPartition` is not under src/; per spec section 4.1 it returns
`nrpatch = nx*ny*nz` patches and the requested grid shape, which the
constructor reads back into `nxyz`.  `nsweeps = pow(2, dim)` (line 46). -/
def DSTConstruct (a : DSTCtorArgs) : DSTConfig :=
  let nx := 2
  let ny := 2
  let nz := 1
  { nxyz := (nx, ny, nz), nrpatch := nx * ny * nz, nsweeps := 2 ^ a.meshDim }

/-! ### The sweep-0 traversal order -/

/-- The patches visited at front `s` of sweep 0, in the order of the inner
loop of DST.cpp lines 110-120: columns `i = 0 .. nx-1` with `j = s - i`,
kept when `0 <= j < ny` (the test `i <= s` renders `j >= 0` of the signed
source in natural subtraction). -/
def front (nx ny s : ℕ) : List (ℕ × ℕ) :=
  (List.range nx).filterMap (fun i =>
    if i ≤ s ∧ s - i < ny then some (i, s - i) else none)

/-- The full visiting order of sweep 0: fronts `s = 0 .. nx+ny-2`
concatenated in increasing order (DST.cpp lines 101-120). -/
def sweep0Visits (nx ny : ℕ) : List (ℕ × ℕ) :=
  (List.range (nx + ny - 1)).flatMap (front nx ny)

/-- The position of the first occurrence of `x` in a list (the time at
which the traversal reaches `x`). -/
def posIn {β : Type} [DecidableEq β] (x : β) : List β → ℕ
  | [] => 0
  | b :: t => if b = x then 0 else posIn x t + 1

/-- The number of occurrences of `x` in a list (the number of times the
traversal visits `x`). -/
def countIn {β : Type} [DecidableEq β] (x : β) : List β → ℕ
  | [] => 0
  | b :: t => (if b = x then 1 else 0) + countIn x t

/-! ### Supporting lemmas -/

/-- A monadic fold whose step fixes `P` returns `P`. -/
theorem foldlM_ok_fixed {α β : Type} (f : β → α → Except String β) (P : β) :
    ∀ l : List α, (∀ a ∈ l, f P a = Except.ok P) →
      l.foldlM f P = Except.ok P := by
  intro l
  induction l with
  | nil => intro _; rfl
  | cons a t ih =>
    intro h
    rw [List.foldlM_cons, h a (List.mem_cons_self a t)]
    exact ih (fun b hb => h b (List.mem_cons_of_mem _ hb))

/-- Entrywise sums of all-zero vectors are all zero. -/
theorem vecAdd_forall_zero :
    ∀ {a b : List ℚ}, (∀ x ∈ a, x = 0) → (∀ x ∈ b, x = 0) →
      ∀ x ∈ vecAdd a b, x = 0 := by
  intro a
  induction a with
  | nil => intro b _ _ x hx; simp [vecAdd] at hx
  | cons p as ih =>
    intro b ha hb x hx
    cases b with
    | nil => simp [vecAdd] at hx
    | cons q bs =>
      simp only [vecAdd, List.zipWith_cons_cons, List.mem_cons] at hx
      rcases hx with h | h
      · rw [h, ha p (List.mem_cons_self p as), hb q (List.mem_cons_self q bs)]
        ring
      · exact ih (fun y hy => ha y (List.mem_cons_of_mem _ hy))
          (fun y hy => hb y (List.mem_cons_of_mem _ hy)) x h

/-- The sum of squares of an all-zero vector is zero. -/
theorem sumSq_eq_zero {v : List ℚ} (h : ∀ x ∈ v, x = 0) : sumSq v = 0 := by
  unfold sumSq
  apply List.sum_eq_zero
  intro x hx
  rcases List.mem_map.mp hx with ⟨y, hy, rfl⟩
  rw [h y hy]
  ring

/-- Every entry of a zero vector is zero. -/
theorem mem_zeros {n : ℕ} : ∀ x ∈ zeros n, x = (0 : ℚ) :=
  fun _ hx => List.eq_of_mem_replicate hx

/-- The skip threshold squared is positive. -/
theorem dstThresholdSq_pos : 0 < dstThreshold ^ 2 := by
  norm_num [dstThreshold]

/-- After the reset prologue with a zero input residual, every local
residual is the all-zero vector. -/
theorem localResidual_reset_zero (ctx : DSTCtx) (st0 : DSTState)
    (l ip ndofs : ℕ) :
    ∀ x ∈ localResidual (resetScatter ctx (fun _ => 0) st0) l ip ndofs,
      x = 0 := by
  apply vecAdd_forall_zero
  · by_cases hl : l = 0
    · rw [if_pos hl]
      apply vecAdd_forall_zero mem_zeros
      intro x hx
      simp only [resetScatter, List.mem_map] at hx
      rcases hx with ⟨y, _, rfl⟩
      rfl
    · rw [if_neg hl]
      exact mem_zeros
  · exact mem_zeros

/-- A patch whose local residual is below the threshold is skipped: the
body returns the state and the correction unchanged. -/
theorem patchBody_skip_of (ctx : DSTCtx) (l i j : ℕ) (st : DSTState)
    (z : ℕ → ℚ)
    (h : sumSq (localResidual st l (GetPatchId ctx.nx i j)
        (ctx.Dof2GlobalDof (GetPatchId ctx.nx i j)).length) < dstThreshold ^ 2) :
    patchBody ctx l i j st z = Except.ok (st, z) := by
  unfold patchBody
  rw [if_pos h]

/-- With a zero input residual every cell of sweep 0 leaves the reset
state and the zero correction unchanged. -/
theorem stepCell_reset_fixed (ctx : DSTCtx) (st0 : DSTState) (s i : ℕ) :
    stepCell ctx 0 s i (resetScatter ctx (fun _ => 0) st0, fun _ => 0) =
      Except.ok (resetScatter ctx (fun _ => 0) st0, fun _ => 0) := by
  unfold stepCell
  by_cases hj : jOfSwitch ctx.nx ctx.ny 0 s i < 0 ∨
      (ctx.ny : ℤ) ≤ jOfSwitch ctx.nx ctx.ny 0 s i
  · rw [if_pos hj]
  · rw [if_neg hj]
    apply patchBody_skip_of
    rw [sumSq_eq_zero (localResidual_reset_zero ctx st0 0 _ _)]
    exact dstThresholdSq_pos

/-- The local residual of DST.cpp lines 133-137 reads, besides the
original source, only the transfer buffer of the sweep being executed:
two states agreeing on `f_orig ip` and on `f_transf ip l` produce the same
residual, whatever the buffers of the other sweeps hold. -/
theorem localResidual_reads_only_own_sweep (stA stB : DSTState)
    (l ip ndofs : ℕ) (horig : stA.f_orig ip = stB.f_orig ip)
    (htr : stA.f_transf ip l = stB.f_transf ip l) :
    localResidual stA l ip ndofs = localResidual stB l ip ndofs := by
  unfold localResidual
  rw [horig, htr]

/-- Membership in a front: `(i, j)` is listed at front `s` exactly when it
is an in-range patch on the anti-diagonal `i + j = s`. -/
theorem mem_front {nx ny s i j : ℕ} :
    (i, j) ∈ front nx ny s ↔ i < nx ∧ j < ny ∧ i + j = s := by
  simp only [front, List.mem_filterMap, List.mem_range]
  constructor
  · rintro ⟨a, ha, hsome⟩
    by_cases hc : a ≤ s ∧ s - a < ny
    · rw [if_pos hc] at hsome
      have hpair := Option.some.inj hsome
      have h1 : a = i := congrArg Prod.fst hpair
      have h2 : s - a = j := congrArg Prod.snd hpair
      subst h1
      subst h2
      exact ⟨ha, hc.2, by omega⟩
    · rw [if_neg hc] at hsome
      exact absurd hsome (by simp)
  · rintro ⟨hi, hj, hs⟩
    refine ⟨i, hi, ?_⟩
    rw [if_pos ⟨by omega, by omega⟩, show s - i = j from by omega]

/-- Each front lists its patches without repetition. -/
theorem nodup_front (nx ny s : ℕ) : (front nx ny s).Nodup := by
  refine List.Nodup.filterMap ?_ (List.nodup_range nx)
  intro a b p hpa hpb
  have hfst : ∀ c : ℕ, p ∈ (if c ≤ s ∧ s - c < ny then some (c, s - c) else none) →
      c = p.1 := by
    intro c hpc
    by_cases hc : c ≤ s ∧ s - c < ny
    · rw [Option.mem_def, if_pos hc] at hpc
      exact congrArg Prod.fst (Option.some.inj hpc)
    · rw [Option.mem_def, if_neg hc] at hpc
      exact absurd hpc (by simp)
  rw [hfst a hpa, hfst b hpb]

/-- Occurrence counts add across a concatenation. -/
theorem countIn_append {β : Type} [DecidableEq β] (x : β) :
    ∀ (l1 l2 : List β), countIn x (l1 ++ l2) = countIn x l1 + countIn x l2 := by
  intro l1
  induction l1 with
  | nil => intro l2; simp [countIn]
  | cons b t ih =>
    intro l2
    show (if b = x then 1 else 0) + countIn x (t ++ l2) =
      ((if b = x then 1 else 0) + countIn x t) + countIn x l2
    rw [ih l2]
    omega

/-- A non-member occurs zero times. -/
theorem countIn_eq_zero_of_not_mem {β : Type} [DecidableEq β] {x : β} :
    ∀ {l : List β}, x ∉ l → countIn x l = 0 := by
  intro l
  induction l with
  | nil => intro _; rfl
  | cons b t ih =>
    intro h
    have hb : ¬ b = x := fun hc => h (hc ▸ List.mem_cons_self b t)
    have ht : x ∉ t := fun hc => h (List.mem_cons_of_mem _ hc)
    show (if b = x then 1 else 0) + countIn x t = 0
    rw [if_neg hb, ih ht]

/-- A member of a list without repetition occurs exactly once. -/
theorem countIn_eq_one_of_nodup_mem {β : Type} [DecidableEq β] {x : β} :
    ∀ {l : List β}, l.Nodup → x ∈ l → countIn x l = 1 := by
  intro l
  induction l with
  | nil => intro _ h; simp at h
  | cons b t ih =>
    intro nd h
    have hnd := List.nodup_cons.mp nd
    show (if b = x then 1 else 0) + countIn x t = 1
    by_cases hb : b = x
    · rw [if_pos hb, countIn_eq_zero_of_not_mem (hb ▸ hnd.1)]
    · have hx : x ∈ t := by
        rcases List.mem_cons.mp h with h1 | h1
        · exact absurd h1.symm hb
        · exact h1
      rw [if_neg hb, ih hnd.2 hx]

/-- The number of occurrences of an in-range patch in a front. -/
theorem count_front (nx ny s i j : ℕ) (hi : i < nx) (hj : j < ny) :
    countIn (i, j) (front nx ny s) = if s = i + j then 1 else 0 := by
  by_cases hs : s = i + j
  · rw [if_pos hs]
    exact countIn_eq_one_of_nodup_mem (nodup_front nx ny s)
      (mem_front.mpr ⟨hi, hj, by omega⟩)
  · rw [if_neg hs]
    apply countIn_eq_zero_of_not_mem
    intro hmem
    exact hs ((mem_front.mp hmem).2.2).symm

/-- Occurrences in a concatenation of blocks add up blockwise. -/
theorem countIn_flatMap {α β : Type} [DecidableEq β] (f : α → List β)
    (x : β) : ∀ l : List α,
    countIn x (l.flatMap f) = (l.map (fun a => countIn x (f a))).sum := by
  intro l
  induction l with
  | nil => rfl
  | cons a t ih =>
    rw [List.flatMap_cons, countIn_append, List.map_cons, List.sum_cons, ih]

/-- Summing an indicator over `range N` gives 1 when the marked index is in
range. -/
theorem sum_map_range_ite (s0 : ℕ) (g : ℕ → ℕ)
    (hg : ∀ s, g s = if s = s0 then 1 else 0) :
    ∀ N : ℕ, s0 < N → ((List.range N).map g).sum = 1 := by
  intro N
  induction N with
  | zero => omega
  | succ n ih =>
    intro h
    rw [List.range_succ, List.map_append, List.sum_append]
    by_cases hn : s0 = n
    · have hz : ((List.range n).map g).sum = 0 := by
        apply List.sum_eq_zero
        intro x hx
        rcases List.mem_map.mp hx with ⟨y, hy, rfl⟩
        rw [hg y, if_neg]
        intro hcon
        rw [hcon, hn] at hy
        exact absurd (List.mem_range.mp hy) (by omega)
      rw [hz]
      simp [hg n, hn]
    · rw [ih (by omega)]
      have hgn : g n = 0 := by
        rw [hg n]
        exact if_neg (fun hc => hn hc.symm)
      simp [hgn]

/-- An in-range patch occurs exactly once in the sweep-0 visiting order. -/
theorem count_sweep0Visits (nx ny i j : ℕ) (hi : i < nx) (hj : j < ny) :
    countIn (i, j) (sweep0Visits nx ny) = 1 := by
  rw [sweep0Visits, countIn_flatMap]
  apply sum_map_range_ite (i + j)
    (fun s => countIn (i, j) (front nx ny s))
  · intro s
    exact count_front nx ny s i j hi hj
  · omega

/-- The first-occurrence position of a member is below the length. -/
theorem posIn_lt_length {β : Type} [DecidableEq β] {x : β} :
    ∀ {l : List β}, x ∈ l → posIn x l < l.length := by
  intro l
  induction l with
  | nil => intro h; simp at h
  | cons b t ih =>
    intro h
    by_cases hb : b = x
    · simp [posIn, hb]
    · have hx : x ∈ t := by
        rcases List.mem_cons.mp h with h1 | h1
        · exact absurd h1.symm hb
        · exact h1
      show (if b = x then 0 else posIn x t + 1) < t.length + 1
      rw [if_neg hb]
      exact Nat.succ_lt_succ (ih hx)

/-- The first occurrence of a member of the left block is found there. -/
theorem posIn_append_left {β : Type} [DecidableEq β] {x : β} :
    ∀ {l1 : List β} (l2 : List β), x ∈ l1 →
      posIn x (l1 ++ l2) = posIn x l1 := by
  intro l1
  induction l1 with
  | nil => intro l2 h; simp at h
  | cons b t ih =>
    intro l2 h
    by_cases hb : b = x
    · show (if b = x then 0 else posIn x (t ++ l2) + 1) =
        (if b = x then 0 else posIn x t + 1)
      rw [if_pos hb, if_pos hb]
    · have hx : x ∈ t := by
        rcases List.mem_cons.mp h with h1 | h1
        · exact absurd h1.symm hb
        · exact h1
      show (if b = x then 0 else posIn x (t ++ l2) + 1) =
        (if b = x then 0 else posIn x t + 1)
      rw [if_neg hb, if_neg hb, ih l2 hx]

/-- The first occurrence of an element absent from the left block lies
past it. -/
theorem posIn_append_right {β : Type} [DecidableEq β] {x : β} :
    ∀ {l1 : List β} (l2 : List β), x ∉ l1 →
      posIn x (l1 ++ l2) = l1.length + posIn x l2 := by
  intro l1
  induction l1 with
  | nil => intro l2 _; simp [posIn]
  | cons b t ih =>
    intro l2 h
    have hb : ¬ b = x := fun hc => h (hc ▸ List.mem_cons_self b t)
    have ht : x ∉ t := fun hc => h (List.mem_cons_of_mem _ hc)
    show (if b = x then 0 else posIn x (t ++ l2) + 1) =
      (t.length + 1) + posIn x l2
    rw [if_neg hb, ih l2 ht]
    omega

/-- The sweep-0 visiting order splits at any front index not past the last
front. -/
theorem sweep0Visits_decomp (nx ny s0 : ℕ) (h : s0 ≤ nx + ny - 1) :
    sweep0Visits nx ny =
      (List.range s0).flatMap (front nx ny) ++
      ((List.range (nx + ny - 1 - s0)).map (fun t => s0 + t)).flatMap
        (front nx ny) := by
  rw [sweep0Visits]
  conv_lhs => rw [show nx + ny - 1 = s0 + (nx + ny - 1 - s0) from by omega]
  rw [List.range_add, List.flatMap_append]

/-- A patch on a strictly earlier anti-diagonal is visited strictly
earlier in sweep 0. -/
theorem posIn_sweep0_lt (nx ny : ℕ) {i j i2 j2 : ℕ} (hi : i < nx)
    (hj : j < ny) (hi2 : i2 < nx) (hj2 : j2 < ny)
    (hlt : i2 + j2 < i + j) :
    posIn (i2, j2) (sweep0Visits nx ny) < posIn (i, j) (sweep0Visits nx ny) := by
  have hsplit := sweep0Visits_decomp nx ny (i + j) (by omega)
  have hxA : (i2, j2) ∈ (List.range (i + j)).flatMap (front nx ny) := by
    rw [List.mem_flatMap]
    exact ⟨i2 + j2, List.mem_range.mpr (by omega),
      mem_front.mpr ⟨hi2, hj2, rfl⟩⟩
  have hyA : (i, j) ∉ (List.range (i + j)).flatMap (front nx ny) := by
    rw [List.mem_flatMap]
    rintro ⟨s, hs, hmem⟩
    have h1 := (mem_front.mp hmem).2.2
    have h2 := List.mem_range.mp hs
    omega
  rw [hsplit, posIn_append_left _ hxA, posIn_append_right _ hyA]
  have h3 := posIn_lt_length hxA
  omega

/-! ### Claim theorems -/

/-- C1: the claim states that an axis-aligned transfer computed in sweep
`l` is never delivered to a sweep whose sign vector is the exact negation
of the sign vector of sweep `l`.  The code violates this: for a transfer
computed in sweep 1 (sign vector `(-1,1)`) in direction `(1,0)`, the
delivery scan chooses sweep 2, whose sign vector `(1,-1)` is the exact
negation of `(-1,1)`.  Rule 2 in the source compares row `l` of the sweeps
array with itself, so it can never reject a candidate. -/
theorem rule2_reversal_at_failing_input :
    destSweep 1 1 0 = some 2 ∧
    (sweeps 2).1 = -(sweeps 1).1 ∧ (sweeps 2).2 = -(sweeps 1).2 := by
  decide

/-- C2: the claim states that a transfer is accumulated into the buffer of
the smallest sweep index that passes BOTH the alignment rule and the
no-reversal rule.  At sweep 1 with transfer direction `(1,0)` no sweep
index passes both rules (`destSweepSpec` returns `none`), yet the source
delivers the contribution to sweep 2, because its Rule 2 test is vacuous. -/
theorem delivery_scan_vs_spec_at_failing_input :
    destSweep 1 1 0 = some 2 ∧ destSweepSpec 1 1 0 = none := by
  decide

/-- C4: at a visited patch, when the sum of squares of the local residual
(original source included only in sweep 0 plus the transfer buffer of the
current sweep, by definition of `localResidual`) is below the squared
threshold `1e-11`, the patch is skipped entirely: the body returns without
solving, without transferring to any neighbor and without touching the
output correction. -/
theorem patch_skip_below_threshold (ctx : DSTCtx) (l i j : ℕ)
    (st : DSTState) (z : ℕ → ℚ)
    (h : sumSq (localResidual st l (GetPatchId ctx.nx i j)
        (ctx.Dof2GlobalDof (GetPatchId ctx.nx i j)).length) < dstThreshold ^ 2) :
    patchBody ctx l i j st z = Except.ok (st, z) :=
  patchBody_skip_of ctx l i j st z h

/-- Witness for `patch_skip_below_threshold` at the one-patch context with
empty dof map: the local residual is empty, its norm is zero, and the body
returns the state unchanged. -/
theorem patch_skip_below_threshold_witness :
    sumSq (localResidual stEmpty 0 (GetPatchId ctxTrivial.nx 0 0)
      (ctxTrivial.Dof2GlobalDof (GetPatchId ctxTrivial.nx 0 0)).length) <
        dstThreshold ^ 2 ∧
    patchBody ctxTrivial 0 0 0 stEmpty (fun _ => 0) =
      Except.ok (stEmpty, fun _ => 0) := by
  have h : sumSq (localResidual stEmpty 0 (GetPatchId ctxTrivial.nx 0 0)
      (ctxTrivial.Dof2GlobalDof (GetPatchId ctxTrivial.nx 0 0)).length) <
        dstThreshold ^ 2 := by
    norm_num [sumSq, localResidual, stEmpty, ctxTrivial, vecAdd, zeros,
      dstThreshold, GetPatchId]
  exact ⟨h, patch_skip_below_threshold ctxTrivial 0 0 0 stEmpty (fun _ => 0) h⟩

/-- C5: one application executes the per-sweep loop for sweep index 0 only
(`for (int l = 0; l < 1; l++)`, so the executed sweep list is `[0]`), and
the residual read by `patchBody` touches only the buffer of the executed
sweep (lemma `localResidual_reads_only_own_sweep`); yet the delivery scan
run from sweep 0 routes the leftward transfer `(-1,0)` into the buffer of
sweep 1 and the downward transfer `(0,-1)` into the buffer of sweep 2,
both legitimate later sweep indices below `nsweeps`, which the single pass
never consumes. -/
theorem single_pass_writes_future_buffers :
    multSweepIndices = [0] ∧
    destSweep 0 (-1) 0 = some 1 ∧
    destSweep 0 0 (-1) = some 2 ∧
    0 < 1 ∧ 1 < nsweeps ∧ 2 < nsweeps := by
  decide

/-- C6: applying the preconditioner to the zero residual returns exactly
the zero correction: the output starts at zero, the reset and scatter
prologue makes every local residual the zero vector, whose norm is below
the threshold, so every patch of every executed sweep is skipped and the
output is never modified. -/
theorem Mult_zero_input (ctx : DSTCtx) (st0 : DSTState) :
    MultZ ctx st0 (fun _ => 0) = Except.ok (fun _ => (0 : ℚ)) := by
  have hpass : sweepPass ctx 0 (resetScatter ctx (fun _ => 0) st0, fun _ => 0) =
      Except.ok (resetScatter ctx (fun _ => 0) st0, fun _ => 0) := by
    apply foldlM_ok_fixed
    intro s _
    apply foldlM_ok_fixed
    intro i _
    exact stepCell_reset_fixed ctx st0 s i
  have hmult : Mult ctx st0 (fun _ => 0) =
      Except.ok (resetScatter ctx (fun _ => 0) st0, fun _ => 0) := by
    show multSweepIndices.foldlM _ _ = _
    rw [show multSweepIndices = [0] from rfl, List.foldlM_cons, hpass]
    rfl
  unfold MultZ
  rw [hmult]
  rfl

/-- C8: on a size mismatch between the target transfer buffer and the
gathered residual, the accumulation point signals the fatal assertion and
accumulates only when the sizes match; the error propagates out of
`TransferSources` (shown on the concrete context `ctxMismatch`), aborting
the application instead of silently tolerating the mismatch. -/
theorem transfer_size_mismatch_fatal :
    (∀ buf res : List ℚ,
      (buf.length ≠ res.length →
        verifyAccumulate buf res = Except.error sizeErrMsg) ∧
      (buf.length = res.length →
        verifyAccumulate buf res = Except.ok (vecAdd buf res))) ∧
    TransferSources ctxMismatch 0 0 [] stEmpty = Except.error sizeErrMsg := by
  refine ⟨fun buf res => ⟨fun h => ?_, fun h => ?_⟩, ?_⟩
  · simp [verifyAccumulate, h]
  · simp [verifyAccumulate, h]
  · rfl

/-- Witness for `transfer_size_mismatch_fatal` at concrete vectors of
lengths 1 and 0 (mismatch, fatal) and 1 and 1 (match, accumulate). -/
theorem transfer_size_mismatch_fatal_witness :
    verifyAccumulate [1] [] = Except.error sizeErrMsg ∧
    verifyAccumulate [1] [2] = Except.ok (vecAdd [1] [2]) :=
  ⟨(transfer_size_mismatch_fatal.1 [1] []).1 (by decide),
   (transfer_size_mismatch_fatal.1 [1] [2]).2 (by decide)⟩

/-- C9: one application of `Mult` is a deterministic function of the input
residual and the construction-time context alone: whatever buffer contents
two calls start from (in particular, the second call starting from the
state the first call left behind), the results coincide bit for bit,
because the prologue of DST.cpp lines 74-86 overwrites every buffer before
any read. -/
theorem Mult_deterministic (ctx : DSTCtx) (stA stB : DSTState) (r : ℕ → ℚ) :
    Mult ctx stA r = Mult ctx stB r := rfl

/-- C10: the constructor hardwires the partition grid `nx = 2`, `ny = 2`,
`nz = 1` (DST.cpp lines 21-23): every constructed instance has the same
`2 x 2 x 1` patch layout with 4 patches, independent of every
caller-controlled constructor argument. -/
theorem ctor_grid_fixed (a b : DSTCtorArgs) :
    (DSTConstruct a).nxyz = (2, 2, 1) ∧
    (DSTConstruct a).nxyz = (DSTConstruct b).nxyz ∧
    (DSTConstruct a).nrpatch = 4 :=
  ⟨rfl, rfl, rfl⟩

/-- C7 counterexample: the windowing operation is not idempotent.  At node
3, inside the transition band, the window value is 1/2, so one application
yields 1/2 while two applications yield 1/4; the discrepancy is a factor of
the window value itself, far beyond any floating point tolerance. -/
theorem cutoff_not_idempotent :
    cutoffApply windowEx (cutoffApply windowEx solEx) 3 ≠
      cutoffApply windowEx solEx 3 ∧
    cutoffApply windowEx (cutoffApply windowEx solEx) 3 = 1 / 4 ∧
    cutoffApply windowEx solEx 3 = 1 / 2 := by
  norm_num [cutoffApply, windowEx, solEx]

/-- C7 amended: applying the cutoff twice with the same direction agrees
with applying it once exactly at every degree of freedom where the window
is 0 or 1 (the interior and the fully cut region), and everywhere the
twice-windowed value is bounded in magnitude by the once-windowed value;
inside the transition band, where the window is strictly between 0 and 1,
the two differ. -/
theorem cutoff_twice_bounded (w u : ℕ → ℚ) (p : ℕ)
    (h0 : 0 ≤ w p) (h1 : w p ≤ 1) :
    |cutoffApply w (cutoffApply w u) p| ≤ |cutoffApply w u p| ∧
    (w p = 0 ∨ w p = 1 →
      cutoffApply w (cutoffApply w u) p = cutoffApply w u p) := by
  constructor
  · show |w p * (w p * u p)| ≤ |w p * u p|
    rw [abs_mul]
    have habs : |w p| ≤ 1 := by rw [abs_of_nonneg h0]; exact h1
    calc |w p| * |w p * u p| ≤ 1 * |w p * u p| :=
          mul_le_mul_of_nonneg_right habs (abs_nonneg _)
      _ = |w p * u p| := one_mul _
  · rintro (h | h) <;> simp [cutoffApply, h]

/-- Witness for `cutoff_twice_bounded`, at the band node of the
representative window. -/
theorem cutoff_twice_bounded_witness :
    (0 ≤ windowEx 3 ∧ windowEx 3 ≤ 1) ∧
    |cutoffApply windowEx (cutoffApply windowEx solEx) 3| ≤
      |cutoffApply windowEx solEx 3| := by
  have h0 : 0 ≤ windowEx 3 := by norm_num [windowEx]
  have h1 : windowEx 3 ≤ 1 := by norm_num [windowEx]
  exact ⟨⟨h0, h1⟩, (cutoff_twice_bounded windowEx solEx 3 h0 h1).1⟩

/-- C3: in sweep 0 over an `nx` by `ny` patch grid the traversal visits
every in-range patch `(i,j)` exactly once; the patch appears on front `s`
precisely for `s = i + j`, and fronts are concatenated in increasing order
of `s` by definition of `sweep0Visits`; consequently every distinct patch
`(i2,j2)` with `i2 <= i` and `j2 <= j` is visited strictly before
`(i,j)`. -/
theorem sweep0_traversal (nx ny i j : ℕ) (hi : i < nx) (hj : j < ny) :
    countIn (i, j) (sweep0Visits nx ny) = 1 ∧
    (∀ s, (i, j) ∈ front nx ny s ↔ s = i + j) ∧
    (∀ i2 j2, i2 ≤ i → j2 ≤ j → (i2, j2) ≠ (i, j) →
      posIn (i2, j2) (sweep0Visits nx ny) < posIn (i, j) (sweep0Visits nx ny)) := by
  refine ⟨count_sweep0Visits nx ny i j hi hj, ?_, ?_⟩
  · intro s
    constructor
    · intro h
      exact ((mem_front.mp h).2.2).symm
    · intro h
      exact mem_front.mpr ⟨hi, hj, h.symm⟩
  · intro i2 j2 h2i h2j hne
    have hlt : i2 + j2 < i + j := by
      have hor : i2 ≠ i ∨ j2 ≠ j := by
        by_contra hcon
        push_neg at hcon
        exact hne (by rw [hcon.1, hcon.2])
      omega
    exact posIn_sweep0_lt nx ny hi hj (by omega) (by omega) hlt

/-- Witness for `sweep0_traversal` on the 2 by 2 grid of the constructed
object, at patch `(1,1)` with predecessor `(0,0)`. -/
theorem sweep0_traversal_witness :
    countIn (1, 1) (sweep0Visits 2 2) = 1 ∧
    posIn (0, 0) (sweep0Visits 2 2) < posIn (1, 1) (sweep0Visits 2 2) :=
  ⟨(sweep0_traversal 2 2 1 1 (by decide) (by decide)).1,
   (sweep0_traversal 2 2 1 1 (by decide) (by decide)).2.2 0 0
     (by decide) (by decide) (by decide)⟩

end DST
